import Mathlib

/-!
Shallow embedding of `eta.py` (the eta measure, a generalised Kendall tau for
noisy and incomplete pairwise judgements) and proofs about it.

Numbers are modelled by `ℚ`.  Python dictionaries are modelled by functions
`α × α → Option ℚ` (`none` means the key is absent, mirroring `(x, y) in d`).
A call that would raise `ZeroDivisionError` or `KeyError` is modelled by the
corresponding constructor of `EtaOut` instead of a returned value.
-/

namespace EtaSpec

/-- Outcome of one of the four eta computations: a returned value, a raised
`ZeroDivisionError`, or a raised `KeyError`. -/
inductive EtaOut where
  | ok : ℚ → EtaOut
  | divByZero : EtaOut
  | keyError : EtaOut
deriving DecidableEq

/-- Position pairs `(i, j)` visited by the two nested loops
`for i in range(N): for j in range(i+1, N)`, in loop order. -/
def pairs (N : ℕ) : List (ℕ × ℕ) :=
  (List.range N).flatMap fun i =>
    (List.range' (i + 1) (N - (i + 1))).map fun j => (i, j)

/-- Ground-truth direction `true_delta_ij = 1 if p_ij > 0.5 else -1`,
as computed by every variant. -/
def true_delta (p : ℚ) : ℚ := if p > 1 / 2 then 1 else -1

/-- One iteration of the loop body of `eta` (dense, unweighted):
`x = ranking[i]; y = ranking[j]; p_ij = pref[x][y]; ...`. -/
def etaStep (ranking : List ℕ) (pref : ℕ → ℕ → ℚ) (acc : ℚ × ℚ) (ij : ℕ × ℕ) :
    ℚ × ℚ :=
  let x := ranking.getD ij.1 0
  let y := ranking.getD ij.2 0
  let p_ij := pref x y
  let delta_ij : ℚ := if ij.1 < ij.2 then 1 else -1
  let label := 2 * p_ij - 1
  (acc.1 + label * delta_ij, acc.2 + label * true_delta p_ij)

/-- The accumulated `(_eta, ideal)` of `eta` after both loops. -/
def etaSums (ranking : List ℕ) (pref : ℕ → ℕ → ℚ) : ℚ × ℚ :=
  (pairs ranking.length).foldl (etaStep ranking pref) (0, 0)

/-- `eta(ranking, pref)`: dense comparison matrix, unweighted.  The final
`_eta / ideal` raises `ZeroDivisionError` when `ideal` is zero. -/
def eta (ranking : List ℕ) (pref : ℕ → ℕ → ℚ) : EtaOut :=
  let s := etaSums ranking pref
  if s.2 = 0 then .divByZero else .ok (s.1 / s.2)

/-- One iteration of the loop body of `eta_p` (dense, variance weighted):
`label = (2 * ep - 1) / (1 + vp)`. -/
def etaPStep (ranking : List ℕ) (Ep Vp : ℕ → ℕ → ℚ) (acc : ℚ × ℚ)
    (ij : ℕ × ℕ) : ℚ × ℚ :=
  let x := ranking.getD ij.1 0
  let y := ranking.getD ij.2 0
  let ep := Ep x y
  let vp := Vp x y
  let delta_ij : ℚ := if ij.1 < ij.2 then 1 else -1
  let label := (2 * ep - 1) / (1 + vp)
  (acc.1 + label * delta_ij, acc.2 + label * true_delta ep)

/-- The accumulated `(_eta, ideal)` of `eta_p` after both loops. -/
def etaPSums (ranking : List ℕ) (Ep Vp : ℕ → ℕ → ℚ) : ℚ × ℚ :=
  (pairs ranking.length).foldl (etaPStep ranking Ep Vp) (0, 0)

/-- `eta_p(ranking, Ep, Vp)`: dense matrices, variance weighted. -/
def eta_p (ranking : List ℕ) (Ep Vp : ℕ → ℕ → ℚ) : EtaOut :=
  let s := etaPSums ranking Ep Vp
  if s.2 = 0 then .divByZero else .ok (s.1 / s.2)

/-- One iteration of the loop body of `eta_dict` (sparse, unweighted):
first `(x, y) in pref`, then `(y, x) in pref`, else skip the pair. -/
def etaDictStep {α : Type} [Inhabited α] (ranking : List α)
    (pref : α × α → Option ℚ) (acc : ℚ × ℚ) (ij : ℕ × ℕ) : ℚ × ℚ :=
  let x := ranking.getD ij.1 default
  let y := ranking.getD ij.2 default
  match pref (x, y) with
  | some p_ij =>
      let delta_ij : ℚ := if ij.1 < ij.2 then 1 else -1
      let label := 2 * p_ij - 1
      (acc.1 + label * delta_ij, acc.2 + label * true_delta p_ij)
  | none =>
      match pref (y, x) with
      | some p_ji =>
          let delta_ji : ℚ := if ij.2 < ij.1 then 1 else -1
          let label := 2 * p_ji - 1
          (acc.1 + label * delta_ji, acc.2 + label * true_delta p_ji)
      | none => acc

/-- The accumulated `(_eta, ideal)` of `eta_dict` over an explicit list of
position pairs (the function itself uses `pairs N`). -/
def etaDictSumsOver {α : Type} [Inhabited α] (ranking : List α)
    (pref : α × α → Option ℚ) (l : List (ℕ × ℕ)) : ℚ × ℚ :=
  l.foldl (etaDictStep ranking pref) (0, 0)

/-- The accumulated `(_eta, ideal)` of `eta_dict` after both loops. -/
def etaDictSums {α : Type} [Inhabited α] (ranking : List α)
    (pref : α × α → Option ℚ) : ℚ × ℚ :=
  etaDictSumsOver ranking pref (pairs ranking.length)

/-- `eta_dict(ranking, pref)`: sparse comparison matrix, unweighted. -/
def eta_dict {α : Type} [Inhabited α] (ranking : List α)
    (pref : α × α → Option ℚ) : EtaOut :=
  let s := etaDictSums ranking pref
  if s.2 = 0 then .divByZero else .ok (s.1 / s.2)

/-- `eta_dict` restricted to an explicit list of position pairs; used to state
that skipped pairs contribute nothing. -/
def etaDictOver {α : Type} [Inhabited α] (ranking : List α)
    (pref : α × α → Option ℚ) (l : List (ℕ × ℕ)) : EtaOut :=
  let s := etaDictSumsOver ranking pref l
  if s.2 = 0 then .divByZero else .ok (s.1 / s.2)

/-- One iteration of the loop body of `eta_p_dict`.  The running state is
`none` once a `KeyError` was raised (a missing `Vp` key); the lookup of
`Vp[(x, y)]` is not guarded, exactly as in the source. -/
def etaPDictStep {α : Type} [Inhabited α] (ranking : List α)
    (Ep Vp : α × α → Option ℚ) (acc : Option (ℚ × ℚ)) (ij : ℕ × ℕ) :
    Option (ℚ × ℚ) :=
  match acc with
  | none => none
  | some acc =>
      let x := ranking.getD ij.1 default
      let y := ranking.getD ij.2 default
      match Ep (x, y) with
      | some ep_ij =>
          match Vp (x, y) with
          | some vp_ij =>
              let delta_ij : ℚ := if ij.1 < ij.2 then 1 else -1
              let label := (2 * ep_ij - 1) / (1 + vp_ij)
              some (acc.1 + label * delta_ij, acc.2 + label * true_delta ep_ij)
          | none => none
      | none =>
          match Ep (y, x) with
          | some ep_ji =>
              match Vp (y, x) with
              | some vp_ji =>
                  let delta_ji : ℚ := if ij.2 < ij.1 then 1 else -1
                  let label := (2 * ep_ji - 1) / (1 + vp_ji)
                  some (acc.1 + label * delta_ji,
                        acc.2 + label * true_delta ep_ji)
              | none => none
          | none => some acc

/-- The loop of `eta_p_dict` over an explicit list of position pairs:
`some (_eta, ideal)` on normal exit, `none` if a `KeyError` was raised. -/
def etaPDictLoopOver {α : Type} [Inhabited α] (ranking : List α)
    (Ep Vp : α × α → Option ℚ) (l : List (ℕ × ℕ)) : Option (ℚ × ℚ) :=
  l.foldl (etaPDictStep ranking Ep Vp) (some (0, 0))

/-- The loop of `eta_p_dict` after both loops. -/
def etaPDictLoop {α : Type} [Inhabited α] (ranking : List α)
    (Ep Vp : α × α → Option ℚ) : Option (ℚ × ℚ) :=
  etaPDictLoopOver ranking Ep Vp (pairs ranking.length)

/-- `eta_p_dict(ranking, Ep, Vp)`: sparse matrices, variance weighted. -/
def eta_p_dict {α : Type} [Inhabited α] (ranking : List α)
    (Ep Vp : α × α → Option ℚ) : EtaOut :=
  match etaPDictLoop ranking Ep Vp with
  | none => .keyError
  | some s => if s.2 = 0 then .divByZero else .ok (s.1 / s.2)

/-- `eta_p_dict` restricted to an explicit list of position pairs. -/
def etaPDictOver {α : Type} [Inhabited α] (ranking : List α)
    (Ep Vp : α × α → Option ℚ) (l : List (ℕ × ℕ)) : EtaOut :=
  match etaPDictLoopOver ranking Ep Vp l with
  | none => .keyError
  | some s => if s.2 = 0 then .divByZero else .ok (s.1 / s.2)

/-- Updating a dictionary at one key, `d | {k: v}`. -/
def updateD {α : Type} [DecidableEq α] (d : α × α → Option ℚ) (k : α × α)
    (v : ℚ) : α × α → Option ℚ :=
  fun k2 => if k2 = k then some v else d k2

/-- Whether the pair of positions `ij` is covered by the sparse source:
`(x, y) in pref or (y, x) in pref`. -/
def coveredPair {α : Type} [Inhabited α] (ranking : List α)
    (pref : α × α → Option ℚ) (ij : ℕ × ℕ) : Bool :=
  let x := ranking.getD ij.1 default
  let y := ranking.getD ij.2 default
  (pref (x, y)).isSome || (pref (y, x)).isSome

/-! ### Basic facts about the visited position pairs -/

/-- Membership in the visited pair list: exactly the `(i, j)` with `i < j < N`. -/
lemma mem_pairs {N i j : ℕ} : (i, j) ∈ pairs N ↔ i < j ∧ j < N := by
  simp only [pairs, List.mem_flatMap, List.mem_map, List.mem_range, List.mem_range'_1,
    Prod.mk.injEq]
  constructor
  · rintro ⟨a, ha, b, ⟨hb1, hb2⟩, rfl, rfl⟩
    omega
  · rintro ⟨h1, h2⟩
    exact ⟨i, by omega, j, ⟨by omega, by omega⟩, rfl, rfl⟩

/-- The visited pair list has no duplicates. -/
lemma pairs_nodup (N : ℕ) : (pairs N).Nodup := by
  rw [pairs, List.nodup_flatMap]
  refine ⟨fun i _ => ?_, ?_⟩
  · exact (List.nodup_range' _ _).map fun a b h => (Prod.mk.injEq _ _ _ _ ▸ h).2
  · refine List.Pairwise.imp ?_ (List.pairwise_lt_range _)
    intro a b hab p hpa hpb
    simp only [List.mem_map] at hpa hpb
    obtain ⟨ja, _, rfl⟩ := hpa
    obtain ⟨jb, _, h⟩ := hpb
    exact absurd ((Prod.mk.injEq _ _ _ _ ▸ h).1) (by omega)

/-- The visited pairs as a finite set. -/
def pairsFinset (N : ℕ) : Finset (ℕ × ℕ) :=
  ((Finset.range N) ×ˢ (Finset.range N)).filter fun p => p.1 < p.2

lemma mem_pairsFinset {N : ℕ} {p : ℕ × ℕ} :
    p ∈ pairsFinset N ↔ p.1 < p.2 ∧ p.2 < N := by
  cases p with
  | mk i j =>
      simp only [pairsFinset, Finset.mem_filter, Finset.mem_product, Finset.mem_range]
      constructor
      · rintro ⟨⟨_, h2⟩, h3⟩; exact ⟨h3, h2⟩
      · rintro ⟨h1, h2⟩; exact ⟨⟨by omega, h2⟩, h1⟩

lemma pairs_toFinset (N : ℕ) : (pairs N).toFinset = pairsFinset N :=
  Finset.ext fun p => by
    cases p with
    | mk i j => rw [List.mem_toFinset, mem_pairs, mem_pairsFinset]

/-- Sums of per-pair contributions over the visited pair list, as a `Finset` sum. -/
lemma sum_pairs (N : ℕ) (f : ℕ × ℕ → ℚ) :
    ((pairs N).map f).sum = ∑ p ∈ pairsFinset N, f p := by
  rw [← pairs_toFinset]
  exact (List.sum_toFinset f (pairs_nodup N)).symm

/-! ### Generic fold lemmas -/

/-- A fold that accumulates componentwise contributions is the pair of sums. -/
lemma foldl_addPair (f g : ℕ × ℕ → ℚ) (l : List (ℕ × ℕ)) :
    ∀ a b : ℚ,
      l.foldl (fun acc ij => (acc.1 + f ij, acc.2 + g ij)) (a, b)
        = (a + (l.map f).sum, b + (l.map g).sum) := by
  induction l with
  | nil => intro a b; simp
  | cons ij l ih =>
      intro a b
      simp only [List.foldl_cons, List.map_cons, List.sum_cons, ih, Prod.mk.injEq]
      constructor <;> ring

/-- Steps that do nothing on elements failing the test `q` can be restricted to
the filtered list. -/
lemma foldl_filter_of_id {σ : Type} (f : σ → ℕ × ℕ → σ) (q : ℕ × ℕ → Bool)
    (l : List (ℕ × ℕ)) (h : ∀ ij ∈ l, q ij = false → ∀ acc, f acc ij = acc) :
    ∀ acc, (l.filter q).foldl f acc = l.foldl f acc := by
  induction l with
  | nil => intro acc; rfl
  | cons ij l ih =>
      intro acc
      have ihl := ih fun a ha hq => h a (List.mem_cons_of_mem _ ha) hq
      rcases hq : q ij with _ | _
      · rw [List.filter_cons_of_neg (by simp [hq]), List.foldl_cons,
          h ij (List.mem_cons_self _ _) hq acc]
        exact ihl acc
      · rw [List.filter_cons_of_pos hq, List.foldl_cons, List.foldl_cons]
        exact ihl _

/-- A fold whose steps send `none` to `none` stays at `none`. -/
lemma foldl_none {σ : Type} (f : Option σ → ℕ × ℕ → Option σ)
    (l : List (ℕ × ℕ)) (h : ∀ ij ∈ l, f none ij = none) :
    l.foldl f none = none := by
  induction l with
  | nil => rfl
  | cons ij l ih =>
      rw [List.foldl_cons, h ij (List.mem_cons_self _ _)]
      exact ih fun a ha => h a (List.mem_cons_of_mem _ ha)

/-- An `Option`-state fold whose steps refine plain steps computes the plain fold. -/
lemma foldl_some {σ : Type} (pf : Option σ → ℕ × ℕ → Option σ)
    (df : σ → ℕ × ℕ → σ) (l : List (ℕ × ℕ))
    (h : ∀ acc, ∀ ij ∈ l, pf (some acc) ij = some (df acc ij)) :
    ∀ acc, l.foldl pf (some acc) = some (l.foldl df acc) := by
  induction l with
  | nil => intro acc; rfl
  | cons ij l ih =>
      intro acc
      rw [List.foldl_cons, List.foldl_cons, h acc ij (List.mem_cons_self _ _)]
      exact ih (fun a hij ha => h a hij (List.mem_cons_of_mem _ ha)) _

/-- A fold whose every step adds `(c, |c|)` keeps the first component bounded
by the second. -/
lemma foldl_bound (f : ℚ × ℚ → ℕ × ℕ → ℚ × ℚ) (l : List (ℕ × ℕ))
    (h : ∀ acc : ℚ × ℚ, ∀ ij ∈ l, ∃ c, f acc ij = (acc.1 + c, acc.2 + |c|)) :
    ∀ acc : ℚ × ℚ, |acc.1| ≤ acc.2 → |(l.foldl f acc).1| ≤ (l.foldl f acc).2 := by
  induction l with
  | nil => intro acc hacc; simpa using hacc
  | cons ij l ih =>
      intro acc hacc
      obtain ⟨c, hc⟩ := h acc ij (List.mem_cons_self _ _)
      rw [List.foldl_cons, hc]
      exact ih (fun a b hb => h a b (List.mem_cons_of_mem _ hb)) _
        ((abs_add _ _).trans (add_le_add_right hacc _))

/-- `Option`-state version of `foldl_bound`: a successful run is bounded. -/
lemma foldl_bound_opt (f : Option (ℚ × ℚ) → ℕ × ℕ → Option (ℚ × ℚ))
    (l : List (ℕ × ℕ)) (hnone : ∀ ij ∈ l, f none ij = none)
    (h : ∀ acc : ℚ × ℚ, ∀ ij ∈ l, f (some acc) ij = none ∨
          ∃ c, f (some acc) ij = some (acc.1 + c, acc.2 + |c|)) :
    ∀ acc : ℚ × ℚ, |acc.1| ≤ acc.2 →
      ∀ s, l.foldl f (some acc) = some s → |s.1| ≤ s.2 := by
  induction l with
  | nil =>
      intro acc hacc s hs
      rw [List.foldl_nil] at hs
      cases hs
      exact hacc
  | cons ij l ih =>
      intro acc hacc s hs
      rw [List.foldl_cons] at hs
      rcases h acc ij (List.mem_cons_self _ _) with hng | ⟨c, hc⟩
      · rw [hng, foldl_none f l (fun a ha => hnone a (List.mem_cons_of_mem _ ha))] at hs
        cases hs
      · rw [hc] at hs
        refine ih (fun a ha => hnone a (List.mem_cons_of_mem _ ha))
          (fun a b hb => h a b (List.mem_cons_of_mem _ hb))
          (acc.1 + c, acc.2 + |c|) ?_ s hs
        exact (abs_add _ _).trans (add_le_add_right hacc _)

/-! ### Per-pair arithmetic facts -/

/-- The ideal contribution `label * true_delta` is the absolute value of the label. -/
lemma label_mul_true_delta (p : ℚ) : (2 * p - 1) * true_delta p = |2 * p - 1| := by
  unfold true_delta
  split_ifs with h
  · rw [mul_one, abs_of_pos (by linarith)]
  · rw [abs_of_nonpos (by push_neg at h; linarith)]
    ring

/-- Variance-weighted version of `label_mul_true_delta`, for nonnegative variance. -/
lemma labelP_mul_true_delta (p v : ℚ) (hv : 0 ≤ v) :
    (2 * p - 1) / (1 + v) * true_delta p = |(2 * p - 1) / (1 + v)| := by
  have h1 : (0 : ℚ) < 1 + v := by linarith
  rw [abs_div, abs_of_pos h1, div_mul_eq_mul_div, label_mul_true_delta]

/-- Multiplying by a `±1` direction does not change the absolute value. -/
lemma abs_mul_delta (x : ℚ) (c : Prop) [Decidable c] :
    |x * (if c then (1 : ℚ) else -1)| = |x| := by
  split_ifs <;> simp

/-- Storing the mirrored probability in the mirrored direction gives the same
observed contribution. -/
lemma flip_obs (p : ℚ) : (2 * (1 - p) - 1) * (-1 : ℚ) = (2 * p - 1) * 1 := by
  ring

/-- Storing the mirrored probability in the mirrored direction gives the same
ideal contribution. -/
lemma flip_ideal (p : ℚ) :
    (2 * (1 - p) - 1) * true_delta (1 - p) = (2 * p - 1) * true_delta p := by
  unfold true_delta
  rcases lt_trichotomy p (1 / 2) with h | h | h
  · rw [if_pos (by linarith), if_neg (by linarith)]
    ring
  · rw [h]
    norm_num
  · rw [if_neg (by linarith), if_pos (by linarith)]
    ring

/-! ### Helper facts about list indexing -/

/-- Within-bounds `getD` is a member of the list. -/
lemma getD_mem {α : Type} (l : List α) (i : ℕ) (d : α) (h : i < l.length) :
    l.getD i d ∈ l := by
  rw [List.getD_eq_getElem _ _ h]
  exact List.getElem_mem h

/-- Distinct positions of a duplicate-free list hold distinct items. -/
lemma getD_ne {α : Type} (l : List α) (d : α) (hn : l.Nodup) {i j : ℕ}
    (hi : i < l.length) (hj : j < l.length) (hij : i ≠ j) :
    l.getD i d ≠ l.getD j d := by
  rw [List.getD_eq_getElem _ _ hi, List.getD_eq_getElem _ _ hj]
  intro h
  exact hij (hn.getElem_inj_iff.mp h)

/-- Indexing a reversed list. -/
lemma getD_reverse {α : Type} (l : List α) (d : α) (i : ℕ) (h : i < l.length) :
    l.reverse.getD i d = l.getD (l.length - 1 - i) d := by
  rw [List.getD_eq_getElem _ _ (by simpa using h), List.getD_eq_getElem _ _ (by omega),
    List.getElem_reverse]

/-! ### Per-pair contributions of the dense `eta` as `Finset` sums -/

/-- Observed per-pair contribution `label * delta_ij` of the dense `eta`. -/
def obsC (ranking : List ℕ) (pref : ℕ → ℕ → ℚ) (ij : ℕ × ℕ) : ℚ :=
  (2 * pref (ranking.getD ij.1 0) (ranking.getD ij.2 0) - 1) *
    (if ij.1 < ij.2 then 1 else -1)

/-- Ideal per-pair contribution `label * true_delta_ij` of the dense `eta`. -/
def idealC (ranking : List ℕ) (pref : ℕ → ℕ → ℚ) (ij : ℕ × ℕ) : ℚ :=
  (2 * pref (ranking.getD ij.1 0) (ranking.getD ij.2 0) - 1) *
    true_delta (pref (ranking.getD ij.1 0) (ranking.getD ij.2 0))

/-- The accumulated sums of the dense `eta` are the sums of the per-pair
contributions over all visited pairs. -/
lemma etaSums_eq (ranking : List ℕ) (pref : ℕ → ℕ → ℚ) :
    etaSums ranking pref
      = (∑ p ∈ pairsFinset ranking.length, obsC ranking pref p,
         ∑ p ∈ pairsFinset ranking.length, idealC ranking pref p) := by
  unfold etaSums
  rw [List.foldl_ext (etaStep ranking pref)
      (fun acc ij => (acc.1 + obsC ranking pref ij, acc.2 + idealC ranking pref ij))
      (0, 0) (fun a b _ => rfl),
    foldl_addPair, sum_pairs, sum_pairs]
  simp

/-! ### Claims -/

/-- Claim C4: for every ranking of length `N ≥ 2` and dense preference matrix
such that `pref[ranking[i]][ranking[j]] > 0.5` for every pair of positions
`i < j`, `eta` returns exactly `1.0`. -/
theorem claim_C4 (ranking : List ℕ) (pref : ℕ → ℕ → ℚ)
    (hN : 2 ≤ ranking.length)
    (hmatch : ∀ i ∈ List.range ranking.length, ∀ j ∈ List.range ranking.length,
      i < j → pref (ranking.getD i 0) (ranking.getD j 0) > 1 / 2) :
    eta ranking pref = .ok 1 := by
  have key : ∀ p ∈ pairsFinset ranking.length,
      obsC ranking pref p = idealC ranking pref p ∧ 0 < idealC ranking pref p := by
    intro p hp
    obtain ⟨h1, h2⟩ := mem_pairsFinset.mp hp
    have hgt := hmatch p.1 (List.mem_range.mpr (by omega)) p.2 (List.mem_range.mpr h2) h1
    unfold obsC idealC true_delta
    rw [if_pos h1, if_pos hgt]
    exact ⟨rfl, by nlinarith⟩
  have hpos : 0 < ∑ p ∈ pairsFinset ranking.length, idealC ranking pref p :=
    Finset.sum_pos (fun p hp => (key p hp).2)
      ⟨(0, 1), mem_pairsFinset.mpr ⟨Nat.zero_lt_one, by omega⟩⟩
  have hobs : ∑ p ∈ pairsFinset ranking.length, obsC ranking pref p
      = ∑ p ∈ pairsFinset ranking.length, idealC ranking pref p :=
    Finset.sum_congr rfl fun p hp => (key p hp).1
  unfold eta
  rw [etaSums_eq]
  dsimp only
  rw [hobs, if_neg (ne_of_gt hpos), div_self (ne_of_gt hpos)]

/-- Witness for claim C4 at the ranking `[0, 1]` and a matching matrix. -/
theorem claim_C4_witness :
    2 ≤ ([0, 1] : List ℕ).length
    ∧ (∀ i ∈ List.range ([0, 1] : List ℕ).length,
        ∀ j ∈ List.range ([0, 1] : List ℕ).length, i < j →
          (fun x y => if x < y then (1 : ℚ) else 0) (([0, 1] : List ℕ).getD i 0)
            (([0, 1] : List ℕ).getD j 0) > 1 / 2)
    ∧ eta [0, 1] (fun x y => if x < y then (1 : ℚ) else 0) = .ok 1 :=
  ⟨by norm_num,
   by
    intro i hi j hj hij
    fin_cases hi <;> fin_cases hj <;> simp_all <;> norm_num,
   claim_C4 [0, 1] _ (by norm_num)
    (by
      intro i hi j hj hij
      fin_cases hi <;> fin_cases hj <;> simp_all <;> norm_num)⟩

/-- Reversal of the visited-pair index map `(i, j) ↦ (N-1-j, N-1-i)`. -/
lemma obs_ideal_reverse (ranking : List ℕ) (pref : ℕ → ℕ → ℚ)
    (hn : ranking.Nodup)
    (hanti : ∀ x ∈ ranking, ∀ y ∈ ranking, x ≠ y → pref x y = 1 - pref y x)
    {p : ℕ × ℕ} (hp : p ∈ pairsFinset ranking.length) :
    obsC ranking.reverse pref p
        = -obsC ranking pref (ranking.length - 1 - p.2, ranking.length - 1 - p.1)
      ∧ idealC ranking.reverse pref p
        = idealC ranking pref (ranking.length - 1 - p.2, ranking.length - 1 - p.1) := by
  obtain ⟨h1, h2⟩ := mem_pairsFinset.mp hp
  set N := ranking.length with hN
  set a := N - 1 - p.2 with ha
  set b := N - 1 - p.1 with hb
  have hab : a < b := by omega
  have hbN : b < N := by omega
  have haN : a < N := by omega
  have hga : ranking.reverse.getD p.2 0 = ranking.getD a 0 := by
    rw [getD_reverse ranking 0 p.2 (by omega)]
  have hgb : ranking.reverse.getD p.1 0 = ranking.getD b 0 := by
    rw [getD_reverse ranking 0 p.1 (by omega)]
  have hxy : ranking.getD b 0 ≠ ranking.getD a 0 :=
    getD_ne ranking 0 hn hbN haN (by omega)
  have hflip : pref (ranking.getD b 0) (ranking.getD a 0)
      = 1 - pref (ranking.getD a 0) (ranking.getD b 0) :=
    hanti _ (getD_mem _ _ _ hbN) _ (getD_mem _ _ _ haN) hxy
  unfold obsC idealC
  dsimp only
  rw [hga, hgb, hflip, if_pos h1, if_pos hab]
  constructor
  · ring
  · rw [flip_ideal]

/-- Claim C3: with a duplicate-free ranking and an antisymmetric dense matrix,
reversing the ranking negates `eta` whenever the ideal sum is nonzero; and a
ranking contradicting the implied direction of every pair gets `eta = -1.0`. -/
theorem claim_C3 (ranking : List ℕ) (pref : ℕ → ℕ → ℚ)
    (hn : ranking.Nodup)
    (hanti : ∀ x ∈ ranking, ∀ y ∈ ranking, x ≠ y → pref x y = 1 - pref y x) :
    (∀ q, eta ranking pref = .ok q → eta ranking.reverse pref = .ok (-q))
    ∧ (2 ≤ ranking.length →
        (∀ i ∈ List.range ranking.length, ∀ j ∈ List.range ranking.length,
          i < j → pref (ranking.getD i 0) (ranking.getD j 0) < 1 / 2) →
        eta ranking pref = .ok (-1)) := by
  constructor
  · intro q hq
    have hmap : ∀ p ∈ pairsFinset ranking.length,
        (ranking.length - 1 - p.2, ranking.length - 1 - p.1)
          ∈ pairsFinset ranking.length := by
      intro p hp
      obtain ⟨u1, u2⟩ := mem_pairsFinset.mp hp
      exact mem_pairsFinset.mpr ⟨by omega, by omega⟩
    have hinv : ∀ p ∈ pairsFinset ranking.length,
        ((ranking.length - 1 - (ranking.length - 1 - p.1) : ℕ),
         (ranking.length - 1 - (ranking.length - 1 - p.2) : ℕ)) = p := by
      intro p hp
      obtain ⟨u1, u2⟩ := mem_pairsFinset.mp hp
      cases p with
      | mk i j =>
          simp only [Prod.mk.injEq]
          omega
    have hobs : ∑ p ∈ pairsFinset ranking.length, obsC ranking.reverse pref p
        = -∑ p ∈ pairsFinset ranking.length, obsC ranking pref p := by
      rw [← Finset.sum_neg_distrib]
      refine Finset.sum_nbij'
        (fun p => (ranking.length - 1 - p.2, ranking.length - 1 - p.1))
        (fun p => (ranking.length - 1 - p.2, ranking.length - 1 - p.1))
        hmap hmap ?_ ?_ ?_
      · intro p hp
        exact hinv p hp
      · intro p hp
        exact hinv p hp
      · intro p hp
        exact (obs_ideal_reverse ranking pref hn hanti hp).1
    have hideal : ∑ p ∈ pairsFinset ranking.length, idealC ranking.reverse pref p
        = ∑ p ∈ pairsFinset ranking.length, idealC ranking pref p := by
      refine Finset.sum_nbij'
        (fun p => (ranking.length - 1 - p.2, ranking.length - 1 - p.1))
        (fun p => (ranking.length - 1 - p.2, ranking.length - 1 - p.1))
        hmap hmap ?_ ?_ ?_
      · intro p hp
        exact hinv p hp
      · intro p hp
        exact hinv p hp
      · intro p hp
        exact (obs_ideal_reverse ranking pref hn hanti hp).2
    unfold eta at hq ⊢
    rw [etaSums_eq] at hq ⊢
    dsimp only at hq ⊢
    rw [List.length_reverse, hobs, hideal]
    split_ifs at hq ⊢ with hz <;> cases hq
    rw [EtaOut.ok.injEq, neg_div]
  · intro hN hcontra
    have key : ∀ p ∈ pairsFinset ranking.length,
        obsC ranking pref p = -idealC ranking pref p ∧ 0 < idealC ranking pref p := by
      intro p hp
      obtain ⟨h1, h2⟩ := mem_pairsFinset.mp hp
      have hlt := hcontra p.1 (List.mem_range.mpr (by omega)) p.2 (List.mem_range.mpr h2) h1
      unfold obsC idealC true_delta
      rw [if_pos h1, if_neg (by linarith)]
      constructor
      · ring
      · nlinarith
    have hpos : 0 < ∑ p ∈ pairsFinset ranking.length, idealC ranking pref p :=
      Finset.sum_pos (fun p hp => (key p hp).2)
        ⟨(0, 1), mem_pairsFinset.mpr ⟨Nat.zero_lt_one, by omega⟩⟩
    have hobs : ∑ p ∈ pairsFinset ranking.length, obsC ranking pref p
        = -∑ p ∈ pairsFinset ranking.length, idealC ranking pref p := by
      rw [← Finset.sum_neg_distrib]
      exact Finset.sum_congr rfl fun p hp => (key p hp).1
    unfold eta
    rw [etaSums_eq]
    dsimp only
    rw [hobs, if_neg (ne_of_gt hpos), neg_div, div_self (ne_of_gt hpos)]

/-- Witness for claim C3 at the ranking `[0, 1]` and the antisymmetric matrix
with `pref 0 1 = 1/4`. -/
theorem claim_C3_witness :
    ([0, 1] : List ℕ).Nodup
    ∧ (∀ x ∈ ([0, 1] : List ℕ), ∀ y ∈ ([0, 1] : List ℕ), x ≠ y →
        (fun u v : ℕ => if u < v then (1 : ℚ)/4 else if v < u then 3/4 else 1/2) x y
          = 1 - (fun u v : ℕ => if u < v then (1 : ℚ)/4 else if v < u then 3/4 else 1/2) y x)
    ∧ ((∀ q, eta [0, 1]
          (fun u v : ℕ => if u < v then (1 : ℚ)/4 else if v < u then 3/4 else 1/2) = .ok q →
          eta ([0, 1] : List ℕ).reverse
            (fun u v : ℕ => if u < v then (1 : ℚ)/4 else if v < u then 3/4 else 1/2) = .ok (-q))
        ∧ (2 ≤ ([0, 1] : List ℕ).length →
            (∀ i ∈ List.range ([0, 1] : List ℕ).length,
              ∀ j ∈ List.range ([0, 1] : List ℕ).length, i < j →
                (fun u v : ℕ => if u < v then (1 : ℚ)/4 else if v < u then 3/4 else 1/2)
                  (([0, 1] : List ℕ).getD i 0) (([0, 1] : List ℕ).getD j 0) < 1 / 2) →
            eta [0, 1]
              (fun u v : ℕ => if u < v then (1 : ℚ)/4 else if v < u then 3/4 else 1/2)
              = .ok (-1))) :=
  ⟨by norm_num,
   by
    intro x hx y hy hxy
    fin_cases hx <;> fin_cases hy <;> simp_all <;> norm_num,
   claim_C3 [0, 1] _ (by norm_num)
    (by
      intro x hx y hy hxy
      fin_cases hx <;> fin_cases hy <;> simp_all <;> norm_num)⟩


/-- Rankings shorter than two items visit no pairs. -/
lemma pairs_nil {N : ℕ} (h : N < 2) : pairs N = [] := by
  interval_cases N <;> rfl

/-- Claim C8: whenever the accumulated ideal sum is exactly `0` — in particular
for every ranking of length `N < 2`, for all four functions — the final
division is unguarded and the call fails with a `ZeroDivisionError` instead of
returning a value. -/
theorem claim_C8 :
    (∀ (ranking : List ℕ) (pref : ℕ → ℕ → ℚ), (etaSums ranking pref).2 = 0 →
        eta ranking pref = .divByZero)
    ∧ (∀ (ranking : List ℕ) (Ep Vp : ℕ → ℕ → ℚ), (etaPSums ranking Ep Vp).2 = 0 →
        eta_p ranking Ep Vp = .divByZero)
    ∧ (∀ {α : Type} [Inhabited α] (ranking : List α) (pref : α × α → Option ℚ),
        (etaDictSums ranking pref).2 = 0 → eta_dict ranking pref = .divByZero)
    ∧ (∀ {α : Type} [Inhabited α] (ranking : List α) (Ep Vp : α × α → Option ℚ)
        (s : ℚ × ℚ), etaPDictLoop ranking Ep Vp = some s → s.2 = 0 →
        eta_p_dict ranking Ep Vp = .divByZero)
    ∧ (∀ (ranking : List ℕ) (pref Ep Vp : ℕ → ℕ → ℚ) {α : Type} [Inhabited α]
        (rankingD : List α) (d dEp dVp : α × α → Option ℚ),
        ranking.length < 2 → rankingD.length < 2 →
        eta ranking pref = .divByZero ∧ eta_p ranking Ep Vp = .divByZero
          ∧ eta_dict rankingD d = .divByZero
          ∧ eta_p_dict rankingD dEp dVp = .divByZero) := by
  refine ⟨?_, ?_, ?_, ?_, ?_⟩
  · intro ranking pref h
    unfold eta
    rw [if_pos h]
  · intro ranking Ep Vp h
    unfold eta_p
    rw [if_pos h]
  · intro α inst ranking pref h
    unfold eta_dict
    rw [if_pos h]
  · intro α inst ranking Ep Vp s hs h
    unfold eta_p_dict
    rw [hs]
    exact if_pos h
  · intro ranking pref Ep Vp α inst rankingD d dEp dVp h1 h2
    have e1 : pairs ranking.length = [] := pairs_nil h1
    have e2 : pairs rankingD.length = [] := pairs_nil h2
    refine ⟨?_, ?_, ?_, ?_⟩
    · unfold eta etaSums
      rw [e1]
      rfl
    · unfold eta_p etaPSums
      rw [e1]
      rfl
    · unfold eta_dict etaDictSums etaDictSumsOver
      rw [e2]
      rfl
    · unfold eta_p_dict etaPDictLoop etaPDictLoopOver
      rw [e2]
      rfl

/-- Witness for claim C8: the empty ranking makes every variant raise. -/
theorem claim_C8_witness :
    (etaSums [] (fun _ _ => 0)).2 = 0
    ∧ eta [] (fun _ _ => 0) = .divByZero
    ∧ ([] : List ℕ).length < 2
    ∧ eta_p_dict ([] : List ℕ) (fun _ => none) (fun _ => none) = .divByZero :=
  ⟨rfl, claim_C8.1 [] (fun _ _ => 0) rfl, by norm_num,
   (claim_C8.2.2.2.2 [] (fun _ _ => 0) (fun _ _ => 0) (fun _ _ => 0)
      ([] : List ℕ) (fun _ => none) (fun _ => none) (fun _ => none)
      (by norm_num) (by norm_num)).2.2.2⟩

/-- Claim C9: a preference probability of exactly `0.5` is assigned
ground-truth direction `true_delta = -1` in every variant: the `> 0.5`
comparison is strict, so exact ties get the "wrong" direction by convention. -/
theorem claim_C9 (p : ℚ) (hp : p = 1 / 2) :
    true_delta p = -1
    ∧ (∀ (ranking : List ℕ) (pref : ℕ → ℕ → ℚ) (acc : ℚ × ℚ) (ij : ℕ × ℕ),
        pref (ranking.getD ij.1 0) (ranking.getD ij.2 0) = p →
        etaStep ranking pref acc ij
          = (acc.1 + (2 * p - 1) * (if ij.1 < ij.2 then 1 else -1),
             acc.2 + (2 * p - 1) * (-1)))
    ∧ (∀ (ranking : List ℕ) (Ep Vp : ℕ → ℕ → ℚ) (acc : ℚ × ℚ) (ij : ℕ × ℕ),
        Ep (ranking.getD ij.1 0) (ranking.getD ij.2 0) = p →
        etaPStep ranking Ep Vp acc ij
          = (acc.1 + (2 * p - 1) / (1 + Vp (ranking.getD ij.1 0) (ranking.getD ij.2 0))
                * (if ij.1 < ij.2 then 1 else -1),
             acc.2 + (2 * p - 1) / (1 + Vp (ranking.getD ij.1 0) (ranking.getD ij.2 0))
                * (-1)))
    ∧ (∀ {α : Type} [Inhabited α] (ranking : List α) (pref : α × α → Option ℚ)
        (acc : ℚ × ℚ) (ij : ℕ × ℕ),
        pref (ranking.getD ij.1 default, ranking.getD ij.2 default) = some p →
        etaDictStep ranking pref acc ij
          = (acc.1 + (2 * p - 1) * (if ij.1 < ij.2 then 1 else -1),
             acc.2 + (2 * p - 1) * (-1)))
    ∧ (∀ {α : Type} [Inhabited α] (ranking : List α) (Ep Vp : α × α → Option ℚ)
        (acc : ℚ × ℚ) (ij : ℕ × ℕ) (v : ℚ),
        Ep (ranking.getD ij.1 default, ranking.getD ij.2 default) = some p →
        Vp (ranking.getD ij.1 default, ranking.getD ij.2 default) = some v →
        etaPDictStep ranking Ep Vp (some acc) ij
          = some (acc.1 + (2 * p - 1) / (1 + v) * (if ij.1 < ij.2 then 1 else -1),
                  acc.2 + (2 * p - 1) / (1 + v) * (-1))) := by
  have htd : true_delta p = -1 := by
    unfold true_delta
    rw [hp, if_neg (by norm_num)]
  refine ⟨htd, ?_, ?_, ?_, ?_⟩
  · intro ranking pref acc ij h
    unfold etaStep
    dsimp only
    rw [h, htd]
  · intro ranking Ep Vp acc ij h
    unfold etaPStep
    dsimp only
    rw [h, htd]
  · intro α inst ranking pref acc ij h
    unfold etaDictStep
    dsimp only
    rw [h]
    dsimp only
    rw [htd]
  · intro α inst ranking Ep Vp acc ij v hE hV
    unfold etaPDictStep
    dsimp only
    rw [hE]
    dsimp only
    rw [hV]
    dsimp only
    rw [htd]

/-- Witness for claim C9 at `p = 1/2`. -/
theorem claim_C9_witness : (1 : ℚ) / 2 = 1 / 2 ∧ true_delta (1 / 2) = -1 :=
  ⟨rfl, (claim_C9 (1 / 2) rfl).1⟩

/-- Claim C10: `eta_p_dict` looks `Vp` up under exactly the key direction found
in `Ep`: with the pair stored in `Ep` as `(0, 1)` but in `Vp` only as the
mirrored `(1, 0)`, the call raises `KeyError` rather than using the symmetric
value or skipping the pair. -/
theorem claim_C10 :
    eta_p_dict [0, 1]
      (fun k => if k = ((0 : ℕ), (1 : ℕ)) then some 1 else none)
      (fun k => if k = ((1 : ℕ), (0 : ℕ)) then some 0 else none) = .keyError := by
  rfl

/-- Claim C7: a pair of positions for which neither `(x, y)` nor `(y, x)` is a
key of the sparse source contributes nothing to either accumulated sum: the
returned value equals the value computed from only the covered pairs. -/
theorem claim_C7 {α : Type} [Inhabited α] (ranking : List α)
    (pref Ep Vp : α × α → Option ℚ) :
    eta_dict ranking pref
      = etaDictOver ranking pref
          ((pairs ranking.length).filter (coveredPair ranking pref))
    ∧ eta_p_dict ranking Ep Vp
      = etaPDictOver ranking Ep Vp
          ((pairs ranking.length).filter (coveredPair ranking Ep)) := by
  constructor
  · have hstep : ∀ ij ∈ pairs ranking.length,
        coveredPair ranking pref ij = false →
        ∀ acc, etaDictStep ranking pref acc ij = acc := by
      intro ij hij hq acc
      unfold coveredPair at hq
      unfold etaDictStep
      dsimp only at hq ⊢
      cases hxy : pref (ranking.getD ij.1 default, ranking.getD ij.2 default) with
      | some p =>
          rw [hxy] at hq
          simp at hq
      | none =>
          cases hyx : pref (ranking.getD ij.2 default, ranking.getD ij.1 default) with
          | some p =>
              rw [hxy, hyx] at hq
              simp at hq
          | none => rfl
    unfold eta_dict etaDictOver etaDictSums etaDictSumsOver
    rw [foldl_filter_of_id _ _ _ hstep]
  · have hstep : ∀ ij ∈ pairs ranking.length,
        coveredPair ranking Ep ij = false →
        ∀ acc, etaPDictStep ranking Ep Vp acc ij = acc := by
      intro ij hij hq acc
      unfold coveredPair at hq
      dsimp only at hq
      cases acc with
      | none => rfl
      | some a =>
          unfold etaPDictStep
          dsimp only
          cases hxy : Ep (ranking.getD ij.1 default, ranking.getD ij.2 default) with
          | some p =>
              rw [hxy] at hq
              simp at hq
          | none =>
              cases hyx : Ep (ranking.getD ij.2 default, ranking.getD ij.1 default) with
              | some p =>
                  rw [hxy, hyx] at hq
                  simp at hq
              | none => rfl
    unfold eta_p_dict etaPDictOver etaPDictLoop etaPDictLoopOver
    rw [foldl_filter_of_id _ _ _ hstep]

/-- Claim C6: with every variance equal to `0`, the variance-weighted variants
coincide exactly with the unweighted ones. -/
theorem claim_C6 (ranking : List ℕ) (Ep Vp : ℕ → ℕ → ℚ)
    {α : Type} [Inhabited α] (rankingD : List α) (dEp dVp : α × α → Option ℚ)
    (hV : ∀ x ∈ ranking, ∀ y ∈ ranking, Vp x y = 0)
    (hdV : ∀ x ∈ rankingD, ∀ y ∈ rankingD,
      (dEp (x, y)).isSome = true → dVp (x, y) = some 0) :
    eta_p ranking Ep Vp = eta ranking Ep
    ∧ eta_p_dict rankingD dEp dVp = eta_dict rankingD dEp := by
  constructor
  · have hstep : ∀ acc : ℚ × ℚ, ∀ ij ∈ pairs ranking.length,
        etaPStep ranking Ep Vp acc ij = etaStep ranking Ep acc ij := by
      intro acc ij hij
      obtain ⟨i, j⟩ := ij
      obtain ⟨h1, h2⟩ := mem_pairs.mp hij
      have hx : ranking.getD i 0 ∈ ranking := getD_mem _ _ _ (by omega)
      have hy : ranking.getD j 0 ∈ ranking := getD_mem _ _ _ h2
      unfold etaPStep etaStep
      dsimp only
      rw [hV _ hx _ hy, add_zero, div_one]
    unfold eta_p eta etaPSums etaSums
    rw [List.foldl_ext _ _ (0, 0) hstep]
  · have hstep : ∀ acc : ℚ × ℚ, ∀ ij ∈ pairs rankingD.length,
        etaPDictStep rankingD dEp dVp (some acc) ij
          = some (etaDictStep rankingD dEp acc ij) := by
      intro acc ij hij
      obtain ⟨i, j⟩ := ij
      obtain ⟨h1, h2⟩ := mem_pairs.mp hij
      have hx : rankingD.getD i default ∈ rankingD := getD_mem _ _ _ (by omega)
      have hy : rankingD.getD j default ∈ rankingD := getD_mem _ _ _ h2
      unfold etaPDictStep etaDictStep
      dsimp only
      cases hxy : dEp (rankingD.getD i default, rankingD.getD j default) with
      | some p =>
          have h0 : dVp (rankingD.getD i default, rankingD.getD j default) = some 0 :=
            hdV _ hx _ hy (by rw [hxy]; rfl)
          rw [h0]
          dsimp only
          rw [add_zero, div_one]
      | none =>
          cases hyx : dEp (rankingD.getD j default, rankingD.getD i default) with
          | some p =>
              have h0 : dVp (rankingD.getD j default, rankingD.getD i default) = some 0 :=
                hdV _ hy _ hx (by rw [hyx]; rfl)
              rw [h0]
              dsimp only
              rw [add_zero, div_one]
          | none => rfl
    unfold eta_p_dict eta_dict etaPDictLoop etaPDictLoopOver etaDictSums etaDictSumsOver
    rw [foldl_some _ _ _ hstep]

/-- Witness for claim C6 at concrete inputs with all variances zero. -/
theorem claim_C6_witness :
    (∀ x ∈ ([0, 1] : List ℕ), ∀ y ∈ ([0, 1] : List ℕ),
        (fun _ _ : ℕ => (0 : ℚ)) x y = 0)
    ∧ (∀ x ∈ ([0, 1] : List ℕ), ∀ y ∈ ([0, 1] : List ℕ),
        (((fun k => if k = ((0 : ℕ), (1 : ℕ)) then some (1 : ℚ) else none) (x, y)).isSome
          = true) →
        (fun k => if k = ((0 : ℕ), (1 : ℕ)) then some (0 : ℚ) else none) (x, y) = some 0)
    ∧ (eta_p [0, 1] (fun _ _ => 1) (fun _ _ => 0) = eta [0, 1] (fun _ _ => 1)
        ∧ eta_p_dict ([0, 1] : List ℕ)
            (fun k => if k = ((0 : ℕ), (1 : ℕ)) then some (1 : ℚ) else none)
            (fun k => if k = ((0 : ℕ), (1 : ℕ)) then some (0 : ℚ) else none)
          = eta_dict ([0, 1] : List ℕ)
            (fun k => if k = ((0 : ℕ), (1 : ℕ)) then some (1 : ℚ) else none)) :=
  ⟨by norm_num,
   by
    intro x hx y hy h
    fin_cases hx <;> fin_cases hy <;> simp_all,
   claim_C6 [0, 1] (fun _ _ => 1) (fun _ _ => 0) ([0, 1] : List ℕ)
    (fun k => if k = ((0 : ℕ), (1 : ℕ)) then some (1 : ℚ) else none)
    (fun k => if k = ((0 : ℕ), (1 : ℕ)) then some (0 : ℚ) else none)
    (by norm_num)
    (by
      intro x hx y hy h
      fin_cases hx <;> fin_cases hy <;> simp_all)⟩

/-- Every `eta` step adds `(c, |c|)` for some contribution `c`. -/
lemma etaStep_shape (ranking : List ℕ) (pref : ℕ → ℕ → ℚ) (acc : ℚ × ℚ)
    (ij : ℕ × ℕ) :
    ∃ c, etaStep ranking pref acc ij = (acc.1 + c, acc.2 + |c|) := by
  refine ⟨(2 * pref (ranking.getD ij.1 0) (ranking.getD ij.2 0) - 1)
      * (if ij.1 < ij.2 then 1 else -1), ?_⟩
  unfold etaStep
  dsimp only
  rw [abs_mul_delta, ← label_mul_true_delta]

/-- Every `eta_p` step adds `(c, |c|)` when the variance there is nonnegative. -/
lemma etaPStep_shape (ranking : List ℕ) (Ep Vp : ℕ → ℕ → ℚ) (acc : ℚ × ℚ)
    (ij : ℕ × ℕ)
    (hv : 0 ≤ Vp (ranking.getD ij.1 0) (ranking.getD ij.2 0)) :
    ∃ c, etaPStep ranking Ep Vp acc ij = (acc.1 + c, acc.2 + |c|) := by
  refine ⟨(2 * Ep (ranking.getD ij.1 0) (ranking.getD ij.2 0) - 1)
      / (1 + Vp (ranking.getD ij.1 0) (ranking.getD ij.2 0))
      * (if ij.1 < ij.2 then 1 else -1), ?_⟩
  unfold etaPStep
  dsimp only
  rw [abs_mul_delta, ← labelP_mul_true_delta _ _ hv]

/-- Every `eta_dict` step adds `(c, |c|)` for some contribution `c`. -/
lemma etaDictStep_shape {α : Type} [Inhabited α] (ranking : List α)
    (pref : α × α → Option ℚ) (acc : ℚ × ℚ) (ij : ℕ × ℕ) :
    ∃ c, etaDictStep ranking pref acc ij = (acc.1 + c, acc.2 + |c|) := by
  unfold etaDictStep
  dsimp only
  cases hxy : pref (ranking.getD ij.1 default, ranking.getD ij.2 default) with
  | some p =>
      refine ⟨(2 * p - 1) * (if ij.1 < ij.2 then 1 else -1), ?_⟩
      rw [abs_mul_delta, ← label_mul_true_delta]
  | none =>
      cases hyx : pref (ranking.getD ij.2 default, ranking.getD ij.1 default) with
      | some p =>
          refine ⟨(2 * p - 1) * (if ij.2 < ij.1 then 1 else -1), ?_⟩
          rw [abs_mul_delta, ← label_mul_true_delta]
      | none => exact ⟨0, by simp⟩

/-- Every `eta_p_dict` step on a live state either raises or adds `(c, |c|)`,
when the variance entries it can use are nonnegative. -/
lemma etaPDictStep_shape {α : Type} [Inhabited α] (ranking : List α)
    (Ep Vp : α × α → Option ℚ) (acc : ℚ × ℚ) (ij : ℕ × ℕ)
    (hv1 : 0 ≤ (Vp (ranking.getD ij.1 default, ranking.getD ij.2 default)).getD 0)
    (hv2 : 0 ≤ (Vp (ranking.getD ij.2 default, ranking.getD ij.1 default)).getD 0) :
    etaPDictStep ranking Ep Vp (some acc) ij = none
      ∨ ∃ c, etaPDictStep ranking Ep Vp (some acc) ij
          = some (acc.1 + c, acc.2 + |c|) := by
  unfold etaPDictStep
  dsimp only
  cases hxy : Ep (ranking.getD ij.1 default, ranking.getD ij.2 default) with
  | some ep =>
      cases hv : Vp (ranking.getD ij.1 default, ranking.getD ij.2 default) with
      | some vp =>
          rw [hv, Option.getD_some] at hv1
          refine Or.inr ⟨(2 * ep - 1) / (1 + vp) * (if ij.1 < ij.2 then 1 else -1), ?_⟩
          rw [abs_mul_delta, ← labelP_mul_true_delta _ _ hv1]
      | none => exact Or.inl rfl
  | none =>
      cases hyx : Ep (ranking.getD ij.2 default, ranking.getD ij.1 default) with
      | some ep =>
          cases hv : Vp (ranking.getD ij.2 default, ranking.getD ij.1 default) with
          | some vp =>
              rw [hv, Option.getD_some] at hv2
              refine Or.inr
                ⟨(2 * ep - 1) / (1 + vp) * (if ij.2 < ij.1 then 1 else -1), ?_⟩
              rw [abs_mul_delta, ← labelP_mul_true_delta _ _ hv2]
          | none => exact Or.inl rfl
      | none => exact Or.inr ⟨0, by simp⟩

/-- A ratio with numerator absolutely bounded by a nonzero denominator lies in
`[-1, 1]`. -/
lemma ratio_bounds {a b : ℚ} (h : |a| ≤ b) (hb : ¬b = 0) :
    -1 ≤ a / b ∧ a / b ≤ 1 := by
  have hb0 : 0 < b := lt_of_le_of_ne ((abs_nonneg a).trans h) (Ne.symm hb)
  obtain ⟨h1, h2⟩ := abs_le.mp h
  exact ⟨(le_div_iff₀ hb0).mpr (by linarith), (div_le_one hb0).mpr h2⟩

/-- Claim C2: on every input where the accumulated ideal sum is nonzero (so a
value is returned at all), each of the four functions returns a value in the
closed interval `[-1, 1]`; the weighted variants need nonnegative variances. -/
theorem claim_C2 (ranking : List ℕ) (pref Ep Vp : ℕ → ℕ → ℚ)
    {α : Type} [Inhabited α] (rankingD : List α) (d dEp dVp : α × α → Option ℚ)
    (hV : ∀ x ∈ ranking, ∀ y ∈ ranking, 0 ≤ Vp x y)
    (hdV : ∀ x ∈ rankingD, ∀ y ∈ rankingD, 0 ≤ (dVp (x, y)).getD 0) :
    (∀ q, eta ranking pref = .ok q → -1 ≤ q ∧ q ≤ 1)
    ∧ (∀ q, eta_p ranking Ep Vp = .ok q → -1 ≤ q ∧ q ≤ 1)
    ∧ (∀ q, eta_dict rankingD d = .ok q → -1 ≤ q ∧ q ≤ 1)
    ∧ (∀ q, eta_p_dict rankingD dEp dVp = .ok q → -1 ≤ q ∧ q ≤ 1) := by
  refine ⟨?_, ?_, ?_, ?_⟩
  · intro q hq
    unfold eta at hq
    dsimp only at hq
    split_ifs at hq with hz <;> cases hq
    refine ratio_bounds ?_ hz
    unfold etaSums
    refine foldl_bound _ _ (fun acc ij _ => etaStep_shape ranking pref acc ij)
      (0, 0) (by simp)
  · intro q hq
    unfold eta_p at hq
    dsimp only at hq
    split_ifs at hq with hz <;> cases hq
    refine ratio_bounds ?_ hz
    unfold etaPSums
    refine foldl_bound _ _ ?_ (0, 0) (by simp)
    intro acc ij hij
    obtain ⟨i, j⟩ := ij
    obtain ⟨h1, h2⟩ := mem_pairs.mp hij
    exact etaPStep_shape ranking Ep Vp acc (i, j)
      (hV _ (getD_mem _ _ _ (by omega)) _ (getD_mem _ _ _ h2))
  · intro q hq
    unfold eta_dict at hq
    dsimp only at hq
    split_ifs at hq with hz <;> cases hq
    refine ratio_bounds ?_ hz
    unfold etaDictSums etaDictSumsOver
    refine foldl_bound _ _ (fun acc ij _ => etaDictStep_shape rankingD d acc ij)
      (0, 0) (by simp)
  · intro q hq
    unfold eta_p_dict at hq
    cases hloop : etaPDictLoop rankingD dEp dVp with
    | none =>
        rw [hloop] at hq
        cases hq
    | some s =>
        rw [hloop] at hq
        dsimp only at hq
        split_ifs at hq with hz <;> cases hq
        refine ratio_bounds ?_ hz
        unfold etaPDictLoop etaPDictLoopOver at hloop
        refine foldl_bound_opt _ _ (fun ij _ => rfl) ?_ (0, 0) (by simp) s hloop
        intro acc ij hij
        obtain ⟨i, j⟩ := ij
        obtain ⟨h1, h2⟩ := mem_pairs.mp hij
        exact etaPDictStep_shape rankingD dEp dVp acc (i, j)
          (hdV _ (getD_mem _ _ _ (by omega)) _ (getD_mem _ _ _ h2))
          (hdV _ (getD_mem _ _ _ h2) _ (getD_mem _ _ _ (by omega)))

/-- Witness for claim C2 at concrete inputs. -/
theorem claim_C2_witness :
    (∀ x ∈ ([0, 1] : List ℕ), ∀ y ∈ ([0, 1] : List ℕ),
        0 ≤ (fun _ _ : ℕ => (0 : ℚ)) x y)
    ∧ (∀ x ∈ ([0, 1] : List ℕ), ∀ y ∈ ([0, 1] : List ℕ),
        0 ≤ (((fun _ : ℕ × ℕ => (none : Option ℚ)) (x, y)).getD 0))
    ∧ (∀ q, eta [0, 1] (fun _ _ => 1) = .ok q → -1 ≤ q ∧ q ≤ 1) :=
  ⟨by norm_num, by norm_num,
   (claim_C2 [0, 1] (fun _ _ => 1) (fun _ _ => 1) (fun _ _ => 0)
      ([0, 1] : List ℕ) (fun _ => none) (fun _ => none) (fun _ => none)
      (by norm_num) (by norm_num)).1⟩

/-- Variance-weighted version of `flip_ideal` (no condition on the variance). -/
lemma flip_idealP (p v : ℚ) :
    (2 * (1 - p) - 1) / (1 + v) * true_delta (1 - p)
      = (2 * p - 1) / (1 + v) * true_delta p := by
  rw [div_mul_eq_mul_div, div_mul_eq_mul_div, flip_ideal]

/-- The default `ℕ` item used by the generic dictionary variants is `0`. -/
lemma default_nat : (default : ℕ) = 0 := rfl

/-- Claim C1: a sparse mapping that covers the same pairs as a complete
antisymmetric dense matrix (each pair stored in exactly one direction with the
mirrored value implied) makes `eta_dict` agree with `eta`; likewise
`eta_p_dict` agrees with `eta_p` for equivalent variance data. -/
theorem claim_C1 (ranking : List ℕ) (pref Ep Vp : ℕ → ℕ → ℚ)
    (d dEp dVp : ℕ × ℕ → Option ℚ)
    (hn : ranking.Nodup)
    (hanti : ∀ x ∈ ranking, ∀ y ∈ ranking, x ≠ y → pref x y = 1 - pref y x)
    (hd : ∀ x ∈ ranking, ∀ y ∈ ranking, x ≠ y →
      (d (x, y) = some (pref x y) ∧ d (y, x) = none)
        ∨ (d (y, x) = some (pref y x) ∧ d (x, y) = none))
    (hantiE : ∀ x ∈ ranking, ∀ y ∈ ranking, x ≠ y → Ep x y = 1 - Ep y x)
    (hdE : ∀ x ∈ ranking, ∀ y ∈ ranking, x ≠ y →
      (dEp (x, y) = some (Ep x y) ∧ dEp (y, x) = none)
        ∨ (dEp (y, x) = some (Ep y x) ∧ dEp (x, y) = none))
    (hVsym : ∀ x ∈ ranking, ∀ y ∈ ranking, Vp x y = Vp y x)
    (hdV : ∀ x ∈ ranking, ∀ y ∈ ranking,
      (dEp (x, y)).isSome = true → dVp (x, y) = some (Vp x y)) :
    eta_dict ranking d = eta ranking pref
    ∧ eta_p_dict ranking dEp dVp = eta_p ranking Ep Vp := by
  constructor
  · have hstep : ∀ acc : ℚ × ℚ, ∀ ij ∈ pairs ranking.length,
        etaDictStep ranking d acc ij = etaStep ranking pref acc ij := by
      intro acc ij hij
      obtain ⟨i, j⟩ := ij
      obtain ⟨h1, h2⟩ := mem_pairs.mp hij
      have hx : ranking.getD i 0 ∈ ranking := getD_mem _ _ _ (by omega)
      have hy : ranking.getD j 0 ∈ ranking := getD_mem _ _ _ h2
      have hxy : ranking.getD i 0 ≠ ranking.getD j 0 :=
        getD_ne ranking 0 hn (by omega) h2 (by omega)
      unfold etaDictStep etaStep
      dsimp only
      rw [default_nat]
      rcases hd _ hx _ hy hxy with ⟨hd1, hd2⟩ | ⟨hd1, hd2⟩
      · rw [hd1]
      · rw [hd2, hd1]
        dsimp only
        have hpyx : pref (ranking.getD j 0) (ranking.getD i 0)
            = 1 - pref (ranking.getD i 0) (ranking.getD j 0) := by
          have := hanti _ hx _ hy hxy
          linarith
        rw [hpyx, if_neg (by omega), if_pos h1]
        simp only [Prod.mk.injEq]
        constructor
        · ring
        · rw [flip_ideal]
    unfold eta_dict eta etaDictSums etaDictSumsOver etaSums
    rw [List.foldl_ext _ _ (0, 0) hstep]
  · have hstep : ∀ acc : ℚ × ℚ, ∀ ij ∈ pairs ranking.length,
        etaPDictStep ranking dEp dVp (some acc) ij
          = some (etaPStep ranking Ep Vp acc ij) := by
      intro acc ij hij
      obtain ⟨i, j⟩ := ij
      obtain ⟨h1, h2⟩ := mem_pairs.mp hij
      have hx : ranking.getD i 0 ∈ ranking := getD_mem _ _ _ (by omega)
      have hy : ranking.getD j 0 ∈ ranking := getD_mem _ _ _ h2
      have hxy : ranking.getD i 0 ≠ ranking.getD j 0 :=
        getD_ne ranking 0 hn (by omega) h2 (by omega)
      unfold etaPDictStep etaPStep
      dsimp only
      rw [default_nat]
      rcases hdE _ hx _ hy hxy with ⟨hd1, hd2⟩ | ⟨hd1, hd2⟩
      · have hv : dVp (ranking.getD i 0, ranking.getD j 0)
            = some (Vp (ranking.getD i 0) (ranking.getD j 0)) :=
          hdV _ hx _ hy (by rw [hd1]; rfl)
        rw [hd1, hv]
      · have hv : dVp (ranking.getD j 0, ranking.getD i 0)
            = some (Vp (ranking.getD j 0) (ranking.getD i 0)) :=
          hdV _ hy _ hx (by rw [hd1]; rfl)
        rw [hd2, hd1, hv]
        dsimp only
        have hpyx : Ep (ranking.getD j 0) (ranking.getD i 0)
            = 1 - Ep (ranking.getD i 0) (ranking.getD j 0) := by
          have := hantiE _ hx _ hy hxy
          linarith
        rw [hpyx, hVsym _ hy _ hx, if_neg (by omega), if_pos h1]
        simp only [Option.some.injEq, Prod.mk.injEq]
        constructor
        · ring
        · rw [flip_idealP]
    unfold eta_p_dict eta_p etaPDictLoop etaPDictLoopOver etaPSums
    rw [foldl_some _ _ _ hstep]

/-- Witness for claim C1 at the ranking `[0, 1, 2]` with the dense matrix
`pref x y = 3/4` for `x < y` and the sparse mapping storing exactly the
`x < y` direction. -/
theorem claim_C1_witness :
    ([0, 1, 2] : List ℕ).Nodup
    ∧ (∀ x ∈ ([0, 1, 2] : List ℕ), ∀ y ∈ ([0, 1, 2] : List ℕ), x ≠ y →
        (fun u v : ℕ => if u < v then (3 : ℚ)/4 else if v < u then 1/4 else 1/2) x y
          = 1 - (fun u v : ℕ => if u < v then (3 : ℚ)/4 else if v < u then 1/4 else 1/2) y x)
    ∧ (eta_dict [0, 1, 2]
        (fun k : ℕ × ℕ => if k.1 < k.2 then some ((3 : ℚ)/4) else none)
        = eta [0, 1, 2]
          (fun u v : ℕ => if u < v then (3 : ℚ)/4 else if v < u then 1/4 else 1/2)
      ∧ eta_p_dict [0, 1, 2]
          (fun k : ℕ × ℕ => if k.1 < k.2 then some ((3 : ℚ)/4) else none)
          (fun k : ℕ × ℕ => if k.1 < k.2 then some (1 : ℚ) else none)
        = eta_p [0, 1, 2]
          (fun u v : ℕ => if u < v then (3 : ℚ)/4 else if v < u then 1/4 else 1/2)
          (fun _ _ : ℕ => (1 : ℚ))) :=
  ⟨by norm_num,
   by
    intro x hx y hy hxy
    fin_cases hx <;> fin_cases hy <;> simp_all <;> norm_num,
   claim_C1 [0, 1, 2]
    (fun u v : ℕ => if u < v then (3 : ℚ)/4 else if v < u then 1/4 else 1/2)
    (fun u v : ℕ => if u < v then (3 : ℚ)/4 else if v < u then 1/4 else 1/2)
    (fun _ _ : ℕ => (1 : ℚ))
    (fun k : ℕ × ℕ => if k.1 < k.2 then some ((3 : ℚ)/4) else none)
    (fun k : ℕ × ℕ => if k.1 < k.2 then some ((3 : ℚ)/4) else none)
    (fun k : ℕ × ℕ => if k.1 < k.2 then some (1 : ℚ) else none)
    (by norm_num)
    (by
      intro x hx y hy hxy
      fin_cases hx <;> fin_cases hy <;> simp_all <;> norm_num)
    (by
      intro x hx y hy hxy
      fin_cases hx <;> fin_cases hy <;> simp_all <;> norm_num)
    (by
      intro x hx y hy hxy
      fin_cases hx <;> fin_cases hy <;> simp_all <;> norm_num)
    (by
      intro x hx y hy hxy
      fin_cases hx <;> fin_cases hy <;> simp_all)
    (by
      intro x hx y hy
      fin_cases hx <;> fin_cases hy <;> simp_all)
    (by
      intro x hx y hy h
      fin_cases hx <;> fin_cases hy <;> simp_all)⟩

lemma updateD_eq_of {α : Type} [DecidableEq α] (d : α × α → Option ℚ)
    (k k2 : α × α) (v : ℚ) (h : k2 = k) : updateD d k v k2 = some v := by
  simp [updateD, h]

lemma updateD_ne_of {α : Type} [DecidableEq α] (d : α × α → Option ℚ)
    (k k2 : α × α) (v : ℚ) (h : k2 ≠ k) : updateD d k v k2 = d k2 := by
  simp [updateD, h]

/-- Swapping both components preserves inequality of pairs. -/
lemma pair_swap_ne {α : Type} {a b c e : α} (h : (a, b) ≠ (c, e)) :
    (b, a) ≠ (e, c) := by
  intro h2
  rw [Prod.mk.injEq] at h2
  exact h (by rw [Prod.mk.injEq]; exact ⟨h2.2, h2.1⟩)

/-- Claim C5: storing a pair as `(x0, y0) ↦ p` or as `(y0, x0) ↦ 1 - p` (all
other entries unchanged, neither direction present initially) gives identical
`eta_dict` results on any duplicate-free ranking; the same holds for
`eta_p_dict` with the variance entry stored under the same flipped key. -/
theorem claim_C5 {α : Type} [Inhabited α] [DecidableEq α] (ranking : List α)
    (d0 Ep0 Vp0 : α × α → Option ℚ) (x0 y0 : α) (p v : ℚ)
    (hn : ranking.Nodup)
    (hd01 : d0 (x0, y0) = none) (hd02 : d0 (y0, x0) = none)
    (hE01 : Ep0 (x0, y0) = none) (hE02 : Ep0 (y0, x0) = none) :
    eta_dict ranking (updateD d0 (x0, y0) p)
      = eta_dict ranking (updateD d0 (y0, x0) (1 - p))
    ∧ eta_p_dict ranking (updateD Ep0 (x0, y0) p) (updateD Vp0 (x0, y0) v)
      = eta_p_dict ranking (updateD Ep0 (y0, x0) (1 - p))
          (updateD Vp0 (y0, x0) v) := by
  constructor
  · have hstep : ∀ acc : ℚ × ℚ, ∀ ij ∈ pairs ranking.length,
        etaDictStep ranking (updateD d0 (x0, y0) p) acc ij
          = etaDictStep ranking (updateD d0 (y0, x0) (1 - p)) acc ij := by
      intro acc ij hij
      obtain ⟨i, j⟩ := ij
      obtain ⟨h1, h2⟩ := mem_pairs.mp hij
      set x := ranking.getD i default with hxdef
      set y := ranking.getD j default with hydef
      have hxy : x ≠ y := getD_ne ranking default hn (by omega) h2 (by omega)
      unfold etaDictStep
      dsimp only
      by_cases hk1 : ((x, y) : α × α) = (x0, y0)
      · have hx0 : x = x0 := congrArg Prod.fst hk1
        have hy0 : y = y0 := congrArg Prod.snd hk1
        have hne : ((x, y) : α × α) ≠ (y0, x0) := by
          intro h
          exact hxy ((congrArg Prod.fst h).trans hy0.symm)
        have hyx : ((y, x) : α × α) = (y0, x0) := by rw [hx0, hy0]
        have h0 : d0 (x, y) = none := by rw [hx0, hy0]; exact hd01
        rw [updateD_eq_of _ _ _ _ hk1, updateD_ne_of _ _ _ _ hne, h0,
          updateD_eq_of _ _ _ _ hyx]
        dsimp only
        rw [if_pos h1, if_neg (by omega), flip_ideal]
        simp only [Prod.mk.injEq]
        exact ⟨by ring, trivial⟩
      · by_cases hk2 : ((x, y) : α × α) = (y0, x0)
        · have hx0 : x = y0 := congrArg Prod.fst hk2
          have hy0 : y = x0 := congrArg Prod.snd hk2
          have hyx : ((y, x) : α × α) = (x0, y0) := by rw [hx0, hy0]
          have h0 : d0 (x, y) = none := by rw [hx0, hy0]; exact hd02
          rw [updateD_ne_of _ _ _ _ hk1, h0, updateD_eq_of _ _ _ _ hyx,
            updateD_eq_of _ _ _ _ hk2]
          dsimp only
          rw [if_neg (by omega), if_pos h1, flip_ideal]
          simp only [Prod.mk.injEq]
          exact ⟨by ring, trivial⟩
        · have hne3 : ((y, x) : α × α) ≠ (x0, y0) := pair_swap_ne hk2
          have hne4 : ((y, x) : α × α) ≠ (y0, x0) := pair_swap_ne hk1
          rw [updateD_ne_of _ _ _ _ hk1, updateD_ne_of _ _ _ _ hk2,
            updateD_ne_of _ _ _ _ hne3, updateD_ne_of _ _ _ _ hne4]
    unfold eta_dict etaDictSums etaDictSumsOver
    rw [List.foldl_ext _ _ (0, 0) hstep]
  · have hstep : ∀ acc : Option (ℚ × ℚ), ∀ ij ∈ pairs ranking.length,
        etaPDictStep ranking (updateD Ep0 (x0, y0) p) (updateD Vp0 (x0, y0) v)
            acc ij
          = etaPDictStep ranking (updateD Ep0 (y0, x0) (1 - p))
              (updateD Vp0 (y0, x0) v) acc ij := by
      intro acc ij hij
      obtain ⟨i, j⟩ := ij
      obtain ⟨h1, h2⟩ := mem_pairs.mp hij
      cases acc with
      | none => rfl
      | some a =>
          set x := ranking.getD i default with hxdef
          set y := ranking.getD j default with hydef
          have hxy : x ≠ y := getD_ne ranking default hn (by omega) h2 (by omega)
          unfold etaPDictStep
          dsimp only
          by_cases hk1 : ((x, y) : α × α) = (x0, y0)
          · have hx0 : x = x0 := congrArg Prod.fst hk1
            have hy0 : y = y0 := congrArg Prod.snd hk1
            have hne : ((x, y) : α × α) ≠ (y0, x0) := by
              intro h
              exact hxy ((congrArg Prod.fst h).trans hy0.symm)
            have hyx : ((y, x) : α × α) = (y0, x0) := by rw [hx0, hy0]
            have h0 : Ep0 (x, y) = none := by rw [hx0, hy0]; exact hE01
            rw [updateD_eq_of _ _ _ _ hk1, updateD_eq_of _ _ _ _ hk1,
              updateD_ne_of _ _ _ _ hne, h0, updateD_eq_of _ _ _ _ hyx,
              updateD_eq_of _ _ _ _ hyx]
            dsimp only
            rw [if_pos h1, if_neg (by omega), flip_idealP]
            simp only [Option.some.injEq, Prod.mk.injEq]
            exact ⟨by ring, trivial⟩
          · by_cases hk2 : ((x, y) : α × α) = (y0, x0)
            · have hx0 : x = y0 := congrArg Prod.fst hk2
              have hy0 : y = x0 := congrArg Prod.snd hk2
              have hyx : ((y, x) : α × α) = (x0, y0) := by rw [hx0, hy0]
              have h0 : Ep0 (x, y) = none := by rw [hx0, hy0]; exact hE02
              rw [updateD_ne_of _ _ _ _ hk1, h0, updateD_eq_of _ _ _ _ hyx,
                updateD_eq_of _ _ _ _ hyx, updateD_eq_of _ _ _ _ hk2,
                updateD_eq_of _ _ _ _ hk2]
              dsimp only
              rw [if_neg (by omega), if_pos h1, flip_idealP]
              simp only [Option.some.injEq, Prod.mk.injEq]
              exact ⟨by ring, trivial⟩
            · have hne3 : ((y, x) : α × α) ≠ (x0, y0) := pair_swap_ne hk2
              have hne4 : ((y, x) : α × α) ≠ (y0, x0) := pair_swap_ne hk1
              rw [updateD_ne_of _ _ _ _ hk1, updateD_ne_of _ _ _ _ hk1,
                updateD_ne_of _ _ _ _ hk2, updateD_ne_of _ _ _ _ hk2,
                updateD_ne_of _ _ _ _ hne3, updateD_ne_of _ _ _ _ hne3,
                updateD_ne_of _ _ _ _ hne4, updateD_ne_of _ _ _ _ hne4]
    unfold eta_p_dict etaPDictLoop etaPDictLoopOver
    rw [List.foldl_ext _ _ (some (0, 0)) hstep]

/-- Witness for claim C5 at a concrete ranking and empty base mappings. -/
theorem claim_C5_witness :
    ([0, 1] : List ℕ).Nodup
    ∧ (fun _ : ℕ × ℕ => (none : Option ℚ)) ((0 : ℕ), (1 : ℕ)) = none
    ∧ (eta_dict [0, 1] (updateD (fun _ => none) ((0 : ℕ), (1 : ℕ)) 1)
        = eta_dict [0, 1] (updateD (fun _ => none) ((1 : ℕ), (0 : ℕ)) (1 - 1))
      ∧ eta_p_dict [0, 1] (updateD (fun _ => none) ((0 : ℕ), (1 : ℕ)) 1)
          (updateD (fun _ => none) ((0 : ℕ), (1 : ℕ)) 0)
        = eta_p_dict [0, 1] (updateD (fun _ => none) ((1 : ℕ), (0 : ℕ)) (1 - 1))
          (updateD (fun _ => none) ((1 : ℕ), (0 : ℕ)) 0)) :=
  ⟨by norm_num, rfl,
   claim_C5 [0, 1] (fun _ => none) (fun _ => none) (fun _ => none) 0 1 1 0
    (by norm_num) rfl rfl rfl rfl⟩

end EtaSpec
